import Mathlib

/-!
# NEUZZ LLVM instrumentation pass (`llvm_mode/afl-llvm-pass.so.cc`)

The pass `AFLCoverage::runOnModule` inserts probe code into every selected
basic block.  This development embeds

* the pass itself, as the function `instrumentBlock` that lays out the
  probes of one block (and `runOnModule` that drives it), and
* the run-time meaning of each group of inserted instructions, as state
  transformers over the thread-local slots `__afl_prev_loc`,
  `__afl_prev_bbval`, `__afl_cur_bbval` and the bytes reachable from
  `__afl_area_ptr`.

Machine integers are natural numbers reduced modulo `2^w` where a value is
read from or written to a `w`-bit location.  Three places of the pass build
instructions whose operand types do not agree; they are given the meaning
the instruction built has:

* `CreateAdd(BitMapIndex, ConstMapSize)` adds an `i32` and an `i64` constant;
  a binary operator has the type of its first operand, so the sum is an `i32`;
* `CreateStore(PrevBBValCasted, EdgeValMapPtrIdx)` stores an `i64` through an
  `i8` pointer; the store writes the eight bytes of the value;
* `CreateZExt(SwCond, Int64Ty)` on a switch condition wider than 64 bits is
  not a well-formed cast (a toolchain with assertions aborts on it); the
  source does not determine what it yields, so that value is a datum of the
  execution, like the operand values of a comparison.
-/

namespace Neuzz

/-! ## Constants -/

/-- `#define MAP_SIZE (2<<18)` of `config.h`, the header the pass includes. -/
def MAP_SIZE : Nat := 2 <<< 18

/-- `#define MAP_SIZE_POW2 18` of `neuzzconfig.h`. -/
def MAP_SIZE_POW2 : Nat := 18

/-- `#define MAP_SIZE (1 << MAP_SIZE_POW2)` of `neuzzconfig.h`. -/
def NEUZZ_MAP_SIZE : Nat := 1 <<< MAP_SIZE_POW2

/-- `#define BBVAL_MAP_SIZE (MAP_SIZE * 8)` of `neuzzconfig.h`. -/
def BBVAL_MAP_SIZE : Nat := NEUZZ_MAP_SIZE * 8

/-! ## The part of the IR the pass looks at -/

/-- Operand types as far as the pass distinguishes them: `iN`, `float`,
`double`, and everything else (pointers, vectors, `half`, `fp128`, ...). -/
inductive Ty where
  | int (w : Nat)
  | float
  | double
  | other
  deriving DecidableEq, Repr

/-- `Type::isIntegerTy()`. -/
def Ty.isIntegerTy : Ty → Bool
  | .int _ => true
  | _ => false

/-- `Type::getIntegerBitWidth()` (only meaningful on integer types). -/
def Ty.getIntegerBitWidth : Ty → Nat
  | .int w => w
  | _ => 0

/-- `Type::isFloatTy()`. -/
def Ty.isFloatTy : Ty → Bool
  | .float => true
  | _ => false

/-- `Type::isDoubleTy()`. -/
def Ty.isDoubleTy : Ty → Bool
  | .double => true
  | _ => false

/-- Run-time state seen by the probes: the three thread-local slots and the
bytes addressed relative to the pointer loaded from `__afl_area_ptr`
(offset `0` is the first byte of the shared bitmap). -/
structure State where
  /-- `__afl_prev_loc`, an `i32` slot. -/
  prev_loc : Nat
  /-- `__afl_prev_bbval`, an `i64` slot. -/
  prev_bbval : Nat
  /-- `__afl_cur_bbval`, an `i64` slot. -/
  cur_bbval : Nat
  /-- Bytes at `__afl_area_ptr + off`. -/
  area : Int → Nat

/-- Non-terminator instructions of the program being compiled.  `phi` stands
for the instructions `getFirstInsertionPt` skips at the head of a block.  A
comparison carries the type of its operands and, for the execution under
consideration, the bit patterns of its two operands.  Any other instruction
carries its effect on the state the probes use (for example a call into
instrumented code, which runs the probes of the callee). -/
inductive Instr where
  | phi
  | cmp (ty : Ty) (op0 op1 : Nat)
  | other (eff : State → State)

/-- Terminators as far as the pass distinguishes them.  A switch carries the
type of its condition, whether the condition `isa<ConstantInt>`, the bit
pattern of the condition in this execution, its number of cases, and
`illExt`, the value that the cast of line 228 yields in this execution when
the condition is wider than 64 bits and the cast therefore ill-formed (it
plays no role for a condition of at most 64 bits). -/
inductive Term where
  | switch (condTy : Ty) (isConstantInt : Bool) (cond : Nat) (ncases : Nat) (illExt : Nat)
  | br (isConditional : Bool)
  | other

/-- A basic block: its instructions before the terminator, and
`BB.getTerminator()` (null for a block without terminator). -/
structure BasicBlock where
  insts : List Instr
  term : Option Term

/-- Instructions before which nothing may be inserted (PHI nodes and the
like). -/
def Instr.isPHI : Instr → Bool
  | .phi => true
  | _ => false

/-! ## Integer helpers -/

/-- Value of a `w`-bit location read as an unsigned number; this is also the
value of `zext` from `iw` to any wider type. -/
def zext (w : Nat) (v : Nat) : Nat := v % 2 ^ w

/-- `CreateZExt(V, Int64Ty)` on a value of type `iw` with bit pattern `v`:
the zero-extension when `w ≤ 64`.  From a wider type the instruction built
is not a well-formed cast, and `ill` stands for what it yields. -/
def CreateZExt64 (w : Nat) (v : Nat) (ill : Nat) : Nat :=
  if w ≤ 64 then zext w v else ill

/-- An `i32` GEP index converted to a pointer offset: GEP indices are
signed, so the index is sign-extended to pointer width. -/
def sext32 (x : Nat) : Int :=
  if x % 2 ^ 32 < 2 ^ 31 then ((x % 2 ^ 32 : Nat) : Int)
  else ((x % 2 ^ 32 : Nat) : Int) - 2 ^ 32

/-- Store of one byte at offset `p`. -/
def storeByte (m : Int → Nat) (p : Int) (v : Nat) : Int → Nat :=
  fun q => if q = p then v % 256 else m q

/-- Store of an `i64` at offset `p`: eight bytes, least significant first
(the targets of the fuzzer are little-endian). -/
def storeQuad (m : Int → Nat) (p : Int) (v : Nat) : Int → Nat :=
  fun q => if p ≤ q ∧ q < p + 8 then (v / 256 ^ (q - p).toNat) % 256 else m q

/-- Load of an `i64` at offset `p` (little-endian). -/
def loadQuad (m : Int → Nat) (p : Int) : Nat :=
  (List.range 8).foldr (fun k acc => m (p + (k : Int)) % 256 + 256 * acc) 0

/-! ## Normalisation of comparison operands (lines 263-285) -/

/-- The guard of line 267: the operand type is an integer of at most 64
bits, `float` or `double`. -/
def supportedTy (OpType : Ty) : Bool :=
  (OpType.isIntegerTy && decide (OpType.getIntegerBitWidth ≤ 64)) ||
    OpType.isFloatTy || OpType.isDoubleTy

/-- `opdCasted[i]` for an operand of type `OpType` with bit pattern `v`,
following the branches of lines 270-285 in order: `float` is bit-cast to
`i32` and zero-extended, `double` is bit-cast to `i64`, an integer narrower
than 64 bits is zero-extended, and anything else (an `i64`) is used as is. -/
def opdCasted (OpType : Ty) (v : Nat) : Nat :=
  if OpType.isFloatTy then zext 32 (v % 2 ^ 32)
  else if OpType.isDoubleTy then v % 2 ^ 64
  else if OpType.isIntegerTy && decide (OpType.getIntegerBitWidth < 64) then
    zext OpType.getIntegerBitWidth v
  else v % 2 ^ 64

/-! ## The probes and their run-time meaning -/

/-- SSA values created at the entry of a block and used by its later probes. -/
structure Regs where
  /-- `BitMapIndex`, an `i32`. -/
  BitMapIndex : Nat
  /-- `MapPtrIdx`, as an offset from `MapPtr`. -/
  MapPtrIdx : Int
  /-- `PrevBBValCasted`, an `i64`. -/
  PrevBBValCasted : Nat
  /-- `EdgeValMapPtrIdx`, as an offset from `MapPtr`. -/
  EdgeValMapPtrIdx : Int
  deriving DecidableEq, Repr

/-- Stores performed by the probes, in the order they happen. -/
inductive Event where
  | counter (off : Int) (v : Nat)
  | edgeVal (off : Int) (v : Nat)
  | prevLoc (v : Nat)
  | prevBBVal (v : Nat)
  | curBBVal (v : Nat)
  deriving DecidableEq, Repr

/-- Groups of instructions the pass inserts. -/
inductive Probe where
  /-- Lines 176-214, inserted at the first insertion point. -/
  | entry (cur_loc : Nat)
  /-- Lines 333-337 (`curZero`), inserted at the first insertion point. -/
  | zero
  /-- Lines 250-252, inserted at the first insertion point. -/
  | resetCur
  /-- Lines 272-299, inserted before the successor of a comparison. -/
  | accum (OpType : Ty) (op0 op1 : Nat)
  /-- Lines 305-317, inserted before the conditional branch. -/
  | endBr
  /-- Lines 227-238, inserted before the switch. -/
  | endSw (w : Nat) (SwCond : Nat) (illExt : Nat)

/-- Values before the entry probe has run (never read: the entry probe
dominates every other probe of its block). -/
def Regs.init : Regs := ⟨0, 0, 0, 0⟩

/-- Run-time meaning of one probe: new SSA values, new state, stores made. -/
def Probe.exec : Probe → Regs → State → Regs × State × List Event
  | .entry cur_loc, _, s =>
    -- LoadInst *PrevLoc = IRB.CreateLoad(AFLPrevLoc);
    let PrevLoc := s.prev_loc % 2 ^ 32
    -- Value *PrevLocCasted = IRB.CreateZExt(PrevLoc, IRB.getInt32Ty());
    let PrevLocCasted := zext 32 PrevLoc
    -- ConstantInt *CurLoc = ConstantInt::get(Int32Ty, cur_loc);
    let CurLoc := cur_loc % 2 ^ 32
    -- Value *BitMapIndex = IRB.CreateXor(PrevLocCasted, CurLoc);
    let BitMapIndex := PrevLocCasted ^^^ CurLoc
    -- Value *MapPtrIdx = IRB.CreateGEP(MapPtr, BitMapIndex);
    let MapPtrIdx := sext32 BitMapIndex
    -- Counter = load; Incr = Counter + 1 (i8); store Incr
    let Counter := s.area MapPtrIdx % 256
    let Incr := (Counter + 1) % 256
    let area1 := storeByte s.area MapPtrIdx Incr
    -- IRB.CreateStore(ConstantInt::get(Int32Ty, cur_loc >> 1), AFLPrevLoc);
    let newPrevLoc := ((cur_loc % 2 ^ 32) >>> 1) % 2 ^ 32
    -- LoadInst *PrevBBVal = IRB.CreateLoad(AFLPrevBBVal); zext to i64
    let PrevBBValCasted := zext 64 (s.prev_bbval % 2 ^ 64)
    -- IRB.CreateGEP(MapPtr, IRB.CreateAdd(BitMapIndex, ConstMapSize));
    -- the add has the type of its first operand, i32
    let EdgeValMapPtrIdx := sext32 ((BitMapIndex + MAP_SIZE) % 2 ^ 32)
    (⟨BitMapIndex, MapPtrIdx, PrevBBValCasted, EdgeValMapPtrIdx⟩,
     { s with area := area1, prev_loc := newPrevLoc },
     [.counter MapPtrIdx Incr, .prevLoc newPrevLoc])
  | .zero, r, s =>
    -- IRB.CreateStore(PrevBBValCasted, EdgeValMapPtrIdx);
    -- IRB.CreateStore(ConstantInt::get(Int64Ty, 0), AFLPrevBBVal);
    (r, { s with area := storeQuad s.area r.EdgeValMapPtrIdx r.PrevBBValCasted,
                 prev_bbval := 0 },
     [.edgeVal r.EdgeValMapPtrIdx r.PrevBBValCasted, .prevBBVal 0])
  | .resetCur, r, s =>
    -- IRB.CreateStore(ConstantInt::get(Int64Ty, 0), AFLCurBBVal);
    (r, { s with cur_bbval := 0 }, [.curBBVal 0])
  | .accum OpType op0 op1, r, s =>
    let opdCasted0 := opdCasted OpType op0
    let opdCasted1 := opdCasted OpType op1
    -- LoadCurBBVal = load AFLCurBBVal; zext to i64
    let LoadCurBBValCasted := zext 64 (s.cur_bbval % 2 ^ 64)
    -- CurBBVal = xor LoadCurBBValCasted, (xor opdCasted[0], opdCasted[1])
    let CurBBVal := LoadCurBBValCasted ^^^ (opdCasted0 ^^^ opdCasted1)
    (r, { s with cur_bbval := CurBBVal % 2 ^ 64 }, [.curBBVal (CurBBVal % 2 ^ 64)])
  | .endBr, r, s =>
    -- endBBVal = load AFLCurBBVal; zext to i64
    let endCurBBValCasted := zext 64 (s.cur_bbval % 2 ^ 64)
    -- endIRBR.CreateStore(PrevBBValCasted, EdgeValMapPtrIdx);
    -- endIRBR.CreateStore(endCurBBValCasted, AFLPrevBBVal);
    (r, { s with area := storeQuad s.area r.EdgeValMapPtrIdx r.PrevBBValCasted,
                 prev_bbval := endCurBBValCasted % 2 ^ 64 },
     [.edgeVal r.EdgeValMapPtrIdx r.PrevBBValCasted,
      .prevBBVal (endCurBBValCasted % 2 ^ 64)])
  | .endSw w SwCond illExt, r, s =>
    -- Value *SwCondExt = IRBSW.CreateZExt(SwCond, Int64Ty);
    let SwCondExt := CreateZExt64 w SwCond illExt
    -- IRBSW.CreateStore(PrevBBValCasted, EdgeValMapPtrIdx);
    -- IRBSW.CreateStore(SwCondExt, AFLPrevBBVal);
    (r, { s with area := storeQuad s.area r.EdgeValMapPtrIdx r.PrevBBValCasted,
                 prev_bbval := SwCondExt % 2 ^ 64 },
     [.edgeVal r.EdgeValMapPtrIdx r.PrevBBValCasted, .prevBBVal (SwCondExt % 2 ^ 64)])

/-- An instruction of an instrumented block: an original one or a probe. -/
inductive Item where
  | orig (i : Instr)
  | probe (p : Probe)

/-- Effect of an original instruction on the state the probes use. -/
def Instr.exec : Instr → State → State
  | .other eff, s => eff s
  | _, s => s

/-- One instruction of an instrumented block. -/
def Item.exec : Item → Regs → State → Regs × State × List Event
  | .orig i, r, s => (r, i.exec s, [])
  | .probe p, r, s => p.exec r s

/-- Straight-line execution of the instructions of an instrumented block. -/
def execItems : List Item → Regs → State → Regs × State × List Event
  | [], r, s => (r, s, [])
  | it :: rest, r, s =>
    let o := it.exec r s
    let o2 := execItems rest o.1 o.2.1
    (o2.1, o2.2.1, o.2.2 ++ o2.2.2)

/-! ## The pass on one block (lines 163-341) -/

/-- The loop of lines 254-303: every comparison whose operand type passes
the guard of line 267 is followed by an accumulation probe. -/
def instrumentCmps : List Instr → List Item
  | [] => []
  | .cmp OpType op0 op1 :: rest =>
    if supportedTy OpType then
      .orig (.cmp OpType op0 op1) :: .probe (.accum OpType op0 op1) :: instrumentCmps rest
    else .orig (.cmp OpType op0 op1) :: instrumentCmps rest
  | i :: rest => .orig i :: instrumentCmps rest

/-- The instrumented form of a block selected for instrumentation with
location `cur_loc`.  `IRB` inserts at `BB.getFirstInsertionPt()`, that is
after the leading PHI nodes. -/
def instrumentBlock (cur_loc : Nat) (BB : BasicBlock) : List Item :=
  let phis := (BB.insts.takeWhile Instr.isPHI).map Item.orig
  let body := BB.insts.dropWhile Instr.isPHI
  match BB.term with
  | some (.switch condTy isConstantInt SwCond _ illExt) =>
    if condTy.isIntegerTy && !isConstantInt then
      phis ++ [.probe (.entry cur_loc)] ++ body.map Item.orig ++
        [.probe (.endSw condTy.getIntegerBitWidth SwCond illExt)]
    else
      phis ++ [.probe (.entry cur_loc), .probe .zero] ++ body.map Item.orig
  | some (.br true) =>
    phis ++ [.probe (.entry cur_loc), .probe .resetCur] ++ instrumentCmps body ++
      [.probe .endBr]
  | _ =>
    phis ++ [.probe (.entry cur_loc), .probe .zero] ++ body.map Item.orig

/-- One execution of an instrumented block from state `s`. -/
def runBlock (cur_loc : Nat) (BB : BasicBlock) (s : State) : Regs × State × List Event :=
  execItems (instrumentBlock cur_loc BB) Regs.init s

/-- Consecutive executions of instrumented blocks by one thread, each given
with its `cur_loc`: the edge index every execution used, and the final
state. -/
def runBlocks : List (Nat × BasicBlock) → State → List Nat × State
  | [], s => ([], s)
  | b :: rest, s =>
    ((runBlock b.1 b.2 s).1.BitMapIndex :: (runBlocks rest (runBlock b.1 b.2 s).2.1).1,
     (runBlocks rest (runBlock b.1 b.2 s).2.1).2)

/-! ## Instrumentation ratio (lines 123-134) and the loop over the module -/

/-- `isspace` of the C library in the C locale: space and the control
characters 9 to 13. -/
def isspace (c : Char) : Bool :=
  c.toNat = 32 || (9 ≤ c.toNat && c.toNat ≤ 13)

/-- `isdigit` of the C library. -/
def isdigit (c : Char) : Bool :=
  48 ≤ c.toNat && c.toNat ≤ 57

/-- Value of the longest run of decimal digits at the head of a string,
continuing from the value `acc` of the digits already read. -/
def scanDigits : List Char → Nat → Nat
  | [], acc => acc
  | c :: rest, acc =>
    if isdigit c then scanDigits rest (acc * 10 + (c.toNat - 48)) else acc

/-- The sign the `%u` conversion accepts before the digits: `-` (45) or
`+` (43). -/
def scanSign : List Char → Bool × List Char
  | c :: rest =>
    if c.toNat = 45 then (true, rest)
    else if c.toNat = 43 then (false, rest)
    else (false, c :: rest)
  | [] => (false, [])

/-- The call `sscanf(str, "%u", &inst_ratio)` of the C library (not part of
the repository), as the value stored when the call returns 1, and `none`
when it returns anything else.  The conversion skips white space, accepts an
optional sign, needs at least one decimal digit and reads the longest run of
digits, ignoring what follows; the number is converted as by `strtoul`
(negated modulo `2^64` after a minus sign, `ULONG_MAX` when it does not fit
64 bits) and stored in the 32-bit `unsigned int`. -/
def sscanf_u (str : List Char) : Option Nat :=
  let signed := scanSign (str.dropWhile isspace)
  match signed.2 with
  | [] => none
  | c :: rest =>
    if isdigit c then
      let n := scanDigits (c :: rest) 0
      let ul := if 2 ^ 64 ≤ n then 2 ^ 64 - 1
                else if signed.1 then (2 ^ 64 - n) % 2 ^ 64 else n
      some (ul % 2 ^ 32)
    else none

/-- Modelled from the spec: `FATAL`, a macro of `debug.h` (not under `src/`),
terminates the process with a message; the pass then produces nothing. -/
def FATAL {α : Type} (msg : String) : Except String α := .error msg

/-- Lines 125-134: the instrumentation ratio, from the value of the
environment variable `AFL_INST_RATIO` (`none` when it is not set). -/
def decideRatio (inst_ratio_str : Option (List Char)) : Except String Nat :=
  match inst_ratio_str with
  | none => .ok 100
  | some str =>
    match sscanf_u str with
    | none => FATAL "Bad value of AFL_INST_RATIO (must be between 1 and 100)"
    | some inst_ratio =>
      if inst_ratio = 0 ∨ inst_ratio > 100 then
        FATAL "Bad value of AFL_INST_RATIO (must be between 1 and 100)"
      else .ok inst_ratio

/-- Modelled from the spec: `AFL_R(x)`, a macro of `types.h` (not under
`src/`), draws an integer in `[0, x)`; `rnd` is the underlying random draw. -/
def AFL_R (x : Nat) (rnd : Nat) : Nat := rnd % x

/-- The loop of lines 159-345 over the blocks of the module, `rnd k` being
the `k`-th random draw: a block is skipped when `AFL_R(100) >= inst_ratio`,
and otherwise instrumented with `cur_loc = AFL_R(MAP_SIZE)`. -/
def instrumentBlocks (inst_ratio : Nat) (rnd : Nat → Nat) :
    Nat → List BasicBlock → List (Option (List Item))
  | _, [] => []
  | k, BB :: rest =>
    if AFL_R 100 (rnd k) ≥ inst_ratio then
      none :: instrumentBlocks inst_ratio rnd (k + 1) rest
    else
      some (instrumentBlock (AFL_R MAP_SIZE (rnd (k + 1))) BB) ::
        instrumentBlocks inst_ratio rnd (k + 2) rest

/-- The pass on a module (a list of functions, each a list of blocks): the
ratio is decided first, then the blocks are instrumented; the result is the
instrumented blocks (`none` for a skipped block) and `inst_blocks`. -/
def runOnModule (inst_ratio_str : Option (List Char)) (rnd : Nat → Nat)
    (M : List (List BasicBlock)) : Except String (List (Option (List Item)) × Nat) :=
  match decideRatio inst_ratio_str with
  | .error e => .error e
  | .ok inst_ratio =>
    .ok (instrumentBlocks inst_ratio rnd 0 M.flatten,
         ((instrumentBlocks inst_ratio rnd 0 M.flatten).filter Option.isSome).length)

/-! ## The basic-block value as the specification words it -/

/-- The 64-bit normalisation of a comparison operand in the words of the
specification: an integer of at most 64 bits is zero-extended, a `float`
gives its 32-bit pattern zero-extended, a `double` gives its 64-bit pattern;
operands of any other type are not normalised. -/
def norm64 : Ty → Nat → Option Nat
  | .int w, v => if w ≤ 64 then some (v % 2 ^ w) else none
  | .float, v => some (v % 2 ^ 32)
  | .double, v => some (v % 2 ^ 64)
  | .other, _ => none

/-- What one instruction contributes to the basic-block value in the words
of the specification: a comparison on normalisable operands contributes
`norm64 op0 XOR norm64 op1`, anything else contributes nothing. -/
def contribution : Instr → Option Nat
  | .cmp ty op0 op1 =>
    match norm64 ty op0, norm64 ty op1 with
    | some a, some b => some (a ^^^ b)
    | _, _ => none
  | _ => none

/-- The basic-block value in the words of the specification: the XOR of the
contributions of all instructions of the block (0 when there is none). -/
def specBBValue (insts : List Instr) : Nat :=
  (insts.filterMap contribution).foldl (fun acc c => acc ^^^ c) 0

/-- Bit pattern of an IEEE 754 binary32 number from its sign, biased
exponent and fraction fields (`1.0f` has sign 0, biased exponent 127 and
fraction 0). -/
def float32Bits (sign : Bool) (biasedExp fraction : Nat) : Nat :=
  (if sign then 2 ^ 31 else 0) + (biasedExp % 2 ^ 8) * 2 ^ 23 + fraction % 2 ^ 23

/-! ## Classification of instructions and stores -/

/-- Original instructions and the probes that touch only `__afl_cur_bbval`. -/
def Item.quiet : Item → Bool
  | .orig _ => true
  | .probe .resetCur => true
  | .probe (.accum _ _ _) => true
  | _ => false

/-- The probes that store the edge value: exactly one of them ends a block's
instrumentation. -/
def Probe.isFinal : Probe → Bool
  | .zero => true
  | .endBr => true
  | .endSw _ _ _ => true
  | _ => false

/-- Stores to `__afl_prev_bbval`. -/
def Event.isPrevBBVal : Event → Bool
  | .prevBBVal _ => true
  | _ => false

/-- Instructions of the instrumented block that lie between the entry probe
and the end of the block, other than the probe storing the edge value: they
are quiet, and the original ones are instructions of the block. -/
def Item.inert (insts : List Instr) (it : Item) : Prop :=
  it.quiet = true ∧ ∀ i, it = Item.orig i → i ∈ insts

/-! ## Basic facts about execution -/

theorem execItems_append (a b : List Item) (r : Regs) (s : State) :
    execItems (a ++ b) r s =
      ((execItems b (execItems a r s).1 (execItems a r s).2.1).1,
       (execItems b (execItems a r s).1 (execItems a r s).2.1).2.1,
       (execItems a r s).2.2 ++
         (execItems b (execItems a r s).1 (execItems a r s).2.1).2.2) := by
  induction a generalizing r s with
  | nil => simp [execItems]
  | cons it rest ih => simp [execItems, ih, List.append_assoc]

theorem execItems_single (it : Item) (r : Regs) (s : State) :
    execItems [it] r s = it.exec r s := by
  simp [execItems]

theorem quiet_regs (it : Item) (h : it.quiet = true) (r : Regs) (s : State) :
    (it.exec r s).1 = r := by
  cases it with
  | orig i => rfl
  | probe p => cases p <;> simp_all [Item.quiet, Item.exec, Probe.exec]

theorem execItems_quiet_regs (items : List Item) (h : ∀ it ∈ items, it.quiet = true)
    (r : Regs) (s : State) : (execItems items r s).1 = r := by
  induction items generalizing r s with
  | nil => rfl
  | cons it rest ih =>
    have h1 := quiet_regs it (h it (List.mem_cons_self _ _)) r s
    simp only [execItems, h1]
    exact ih (fun x hx => h x (List.mem_cons_of_mem _ hx)) r _

/-- A component of the state that no instruction of a list writes is the same
after the list as before. -/
theorem execItems_frame {α : Type} (φ : State → α) (items : List Item)
    (h : ∀ it ∈ items, ∀ r s, φ (it.exec r s).2.1 = φ s) (r : Regs) (s : State) :
    φ (execItems items r s).2.1 = φ s := by
  induction items generalizing r s with
  | nil => rfl
  | cons it rest ih =>
    simp only [execItems]
    rw [ih (fun x hx => h x (List.mem_cons_of_mem _ hx))]
    exact h it (List.mem_cons_self _ _) r s

theorem inert_mono {a b : List Instr} (hab : ∀ i ∈ a, i ∈ b) (it : Item)
    (h : Item.inert a it) : Item.inert b it :=
  ⟨h.1, fun i hi => hab i (h.2 i hi)⟩

theorem map_orig_inert (body : List Instr) :
    ∀ it ∈ body.map Item.orig, Item.inert body it := by
  intro it hit
  rcases List.mem_map.1 hit with ⟨i, hi, rfl⟩
  refine ⟨rfl, ?_⟩
  intro j hj
  cases hj
  exact hi

theorem instrumentCmps_inert (body : List Instr) :
    ∀ it ∈ instrumentCmps body, Item.inert body it := by
  induction body with
  | nil => simp [instrumentCmps]
  | cons i rest ih =>
    have ih2 : ∀ it ∈ instrumentCmps rest, Item.inert (i :: rest) it := fun it hit =>
      inert_mono (fun j hj => List.mem_cons_of_mem _ hj) it (ih it hit)
    have h0 : Item.inert (i :: rest) (Item.orig i) :=
      ⟨rfl, fun j hj => by cases hj; exact List.mem_cons_self _ _⟩
    intro it hit
    cases i with
    | phi =>
      simp only [instrumentCmps, List.mem_cons] at hit
      rcases hit with rfl | hit
      · exact h0
      · exact ih2 it hit
    | other eff =>
      simp only [instrumentCmps, List.mem_cons] at hit
      rcases hit with rfl | hit
      · exact h0
      · exact ih2 it hit
    | cmp ty a b =>
      simp only [instrumentCmps] at hit
      split at hit
      · simp only [List.mem_cons] at hit
        rcases hit with rfl | rfl | hit
        · exact h0
        · exact ⟨rfl, fun j hj => by cases hj⟩
        · exact ih2 it hit
      · simp only [List.mem_cons] at hit
        rcases hit with rfl | hit
        · exact h0
        · exact ih2 it hit

theorem dropWhile_mem (BB : BasicBlock) :
    ∀ i ∈ BB.insts.dropWhile Instr.isPHI, i ∈ BB.insts :=
  fun _ hi => (List.dropWhile_sublist Instr.isPHI).subset hi

/-- Every instrumented block consists of its PHI nodes, the entry probe,
inert instructions, exactly one probe that stores the edge value, and again
inert instructions. -/
theorem instrumentBlock_shape (cur_loc : Nat) (BB : BasicBlock) :
    ∃ q1 p q2, instrumentBlock cur_loc BB =
        (BB.insts.takeWhile Instr.isPHI).map Item.orig ++ [Item.probe (.entry cur_loc)] ++
          q1 ++ [Item.probe p] ++ q2
      ∧ p.isFinal = true ∧ (∀ it ∈ q1, Item.inert BB.insts it)
      ∧ (∀ it ∈ q2, Item.inert BB.insts it) := by
  have hmap : ∀ it ∈ (BB.insts.dropWhile Instr.isPHI).map Item.orig,
      Item.inert BB.insts it := fun it hit =>
    inert_mono (dropWhile_mem BB) it (map_orig_inert _ it hit)
  have hcmp : ∀ it ∈ instrumentCmps (BB.insts.dropWhile Instr.isPHI),
      Item.inert BB.insts it := fun it hit =>
    inert_mono (dropWhile_mem BB) it (instrumentCmps_inert _ it hit)
  have hres : ∀ it ∈ Item.probe Probe.resetCur ::
      instrumentCmps (BB.insts.dropWhile Instr.isPHI), Item.inert BB.insts it := by
    intro it hit
    rcases List.mem_cons.1 hit with rfl | hit
    · exact ⟨rfl, fun j hj => by cases hj⟩
    · exact hcmp it hit
  have hnil : ∀ it ∈ ([] : List Item), Item.inert BB.insts it := by simp
  have zeroCase : ∃ q1 p q2,
      (BB.insts.takeWhile Instr.isPHI).map Item.orig ++
          [Item.probe (.entry cur_loc), Item.probe .zero] ++
          (BB.insts.dropWhile Instr.isPHI).map Item.orig =
        (BB.insts.takeWhile Instr.isPHI).map Item.orig ++ [Item.probe (.entry cur_loc)] ++
          q1 ++ [Item.probe p] ++ q2
      ∧ p.isFinal = true ∧ (∀ it ∈ q1, Item.inert BB.insts it)
      ∧ (∀ it ∈ q2, Item.inert BB.insts it) :=
    ⟨[], .zero, _, by simp, rfl, hnil, hmap⟩
  unfold instrumentBlock
  cases hterm : BB.term with
  | none => simpa using zeroCase
  | some t =>
    cases t with
    | other => simpa using zeroCase
    | br c =>
      cases c with
      | false => simpa using zeroCase
      | true => exact ⟨_, .endBr, [], by simp, rfl, hres, hnil⟩
    | switch ty k c n x =>
      by_cases hc : (ty.isIntegerTy && !k) = true
      · simp only [hc, if_true]
        exact ⟨_, .endSw ty.getIntegerBitWidth c x, [], by simp, rfl, hmap, hnil⟩
      · simp only [hc]
        simpa using zeroCase

/-! ## Execution of an instrumented block -/

theorem phis_exec (l : List Instr) (r : Regs) (s : State) :
    execItems ((l.takeWhile Instr.isPHI).map Item.orig) r s = (r, s, []) := by
  induction l with
  | nil => rfl
  | cons i rest ih =>
    cases i with
    | phi => simp [List.takeWhile, Instr.isPHI, execItems, Item.exec, Instr.exec, ih]
    | cmp ty a b => simp [List.takeWhile, Instr.isPHI, execItems]
    | other eff => simp [List.takeWhile, Instr.isPHI, execItems]

theorem final_regs (p : Probe) (h : p.isFinal = true) (r : Regs) (s : State) :
    (p.exec r s).1 = r := by
  cases p <;> simp_all [Probe.isFinal, Probe.exec]

theorem final_area (p : Probe) (h : p.isFinal = true) (r : Regs) (s : State) :
    (p.exec r s).2.1.area = storeQuad s.area r.EdgeValMapPtrIdx r.PrevBBValCasted := by
  cases p <;> simp_all [Probe.isFinal, Probe.exec]

theorem final_prev_loc (p : Probe) (h : p.isFinal = true) (r : Regs) (s : State) :
    (p.exec r s).2.1.prev_loc = s.prev_loc := by
  cases p <;> simp_all [Probe.isFinal, Probe.exec]

/-- Decomposition of one execution of an instrumented block: the entry
probe `o`, the inert instructions `m`, the probe storing the edge value `f`,
and the inert instructions `e` after it. -/
theorem runBlock_spec (cur_loc : Nat) (BB : BasicBlock) (s : State) :
    ∃ (q1 : List Item) (p : Probe) (q2 : List Item), p.isFinal = true
      ∧ (∀ it ∈ q1, Item.inert BB.insts it)
      ∧ (∀ it ∈ q2, Item.inert BB.insts it)
      ∧ runBlock cur_loc BB s =
        ((Probe.exec (.entry cur_loc) Regs.init s).1,
         (execItems q2 (Probe.exec (.entry cur_loc) Regs.init s).1
            (p.exec (Probe.exec (.entry cur_loc) Regs.init s).1
              (execItems q1 (Probe.exec (.entry cur_loc) Regs.init s).1
                (Probe.exec (.entry cur_loc) Regs.init s).2.1).2.1).2.1).2.1,
         (Probe.exec (.entry cur_loc) Regs.init s).2.2 ++
          (execItems q1 (Probe.exec (.entry cur_loc) Regs.init s).1
            (Probe.exec (.entry cur_loc) Regs.init s).2.1).2.2 ++
          (p.exec (Probe.exec (.entry cur_loc) Regs.init s).1
              (execItems q1 (Probe.exec (.entry cur_loc) Regs.init s).1
                (Probe.exec (.entry cur_loc) Regs.init s).2.1).2.1).2.2 ++
          (execItems q2 (Probe.exec (.entry cur_loc) Regs.init s).1
            (p.exec (Probe.exec (.entry cur_loc) Regs.init s).1
              (execItems q1 (Probe.exec (.entry cur_loc) Regs.init s).1
                (Probe.exec (.entry cur_loc) Regs.init s).2.1).2.1).2.1).2.2) := by
  obtain ⟨q1, p, q2, heq, hp, h1, h2⟩ := instrumentBlock_shape cur_loc BB
  refine ⟨q1, p, q2, hp, h1, h2, ?_⟩
  have hq1 := execItems_quiet_regs q1 (fun it hit => (h1 it hit).1)
  have hq2 := execItems_quiet_regs q2 (fun it hit => (h2 it hit).1)
  have hf := final_regs p hp
  unfold runBlock
  rw [heq]
  simp only [execItems_append, execItems_single, phis_exec, Item.exec, hq1, hq2, hf,
    List.nil_append, List.append_assoc]

/-- The SSA values of a block are those its entry probe computes. -/
theorem runBlock_regs (cur_loc : Nat) (BB : BasicBlock) (s : State) :
    (runBlock cur_loc BB s).1 = (Probe.exec (.entry cur_loc) Regs.init s).1 := by
  obtain ⟨q1, p, q2, _, _, _, h⟩ := runBlock_spec cur_loc BB s
  rw [h]

theorem MAP_SIZE_eq : MAP_SIZE = 524288 := by decide

/-- A component of the state that neither the original instructions of the
block nor a store to `__afl_cur_bbval` changes is unchanged by inert
instructions. -/
theorem inert_frame {α : Type} (φ : State → α) (insts : List Instr)
    (hφ : ∀ (s : State) (c : Nat), φ { s with cur_bbval := c } = φ s)
    (h : ∀ i ∈ insts, ∀ s, φ (i.exec s) = φ s)
    (items : List Item) (hin : ∀ it ∈ items, Item.inert insts it) (r : Regs) (s : State) :
    φ (execItems items r s).2.1 = φ s := by
  apply execItems_frame
  intro it hit r s
  have hi := hin it hit
  cases it with
  | orig i => exact h i (hi.2 i rfl) s
  | probe p =>
    have hq := hi.1
    cases p <;> simp_all [Item.quiet, Item.exec, Probe.exec]

/-- Bitmap after a block none of whose original instructions writes it. -/
theorem runBlock_area (cur_loc : Nat) (BB : BasicBlock) (s : State)
    (hq : ∀ i ∈ BB.insts, ∀ t, (i.exec t).area = t.area) :
    (runBlock cur_loc BB s).2.1.area =
      storeQuad
        (storeByte s.area (runBlock cur_loc BB s).1.MapPtrIdx
          ((s.area (runBlock cur_loc BB s).1.MapPtrIdx % 256 + 1) % 256))
        (runBlock cur_loc BB s).1.EdgeValMapPtrIdx
        (runBlock cur_loc BB s).1.PrevBBValCasted := by
  obtain ⟨q1, p, q2, hp, h1, h2, h⟩ := runBlock_spec cur_loc BB s
  rw [h]
  simp only []
  rw [inert_frame (fun t => t.area) BB.insts (fun _ _ => rfl) hq q2 h2, final_area p hp,
    inert_frame (fun t => t.area) BB.insts (fun _ _ => rfl) hq q1 h1]
  simp [Probe.exec]

/-- `__afl_prev_loc` after a block none of whose original instructions
writes it. -/
theorem runBlock_prev_loc (cur_loc : Nat) (BB : BasicBlock) (s : State)
    (hq : ∀ i ∈ BB.insts, ∀ t, (i.exec t).prev_loc = t.prev_loc) :
    (runBlock cur_loc BB s).2.1.prev_loc = ((cur_loc % 2 ^ 32) >>> 1) % 2 ^ 32 := by
  obtain ⟨q1, p, q2, hp, h1, h2, h⟩ := runBlock_spec cur_loc BB s
  rw [h]
  simp only []
  rw [inert_frame (fun t => t.prev_loc) BB.insts (fun _ _ => rfl) hq q2 h2,
    final_prev_loc p hp,
    inert_frame (fun t => t.prev_loc) BB.insts (fun _ _ => rfl) hq q1 h1]
  simp [Probe.exec]

theorem runBlock_BitMapIndex (cur_loc : Nat) (BB : BasicBlock) (s : State) :
    (runBlock cur_loc BB s).1.BitMapIndex = (s.prev_loc % 2 ^ 32) ^^^ (cur_loc % 2 ^ 32) := by
  rw [runBlock_regs]
  simp [Probe.exec, zext]

theorem runBlock_MapPtrIdx (cur_loc : Nat) (BB : BasicBlock) (s : State) :
    (runBlock cur_loc BB s).1.MapPtrIdx =
      sext32 ((s.prev_loc % 2 ^ 32) ^^^ (cur_loc % 2 ^ 32)) := by
  rw [runBlock_regs]
  simp [Probe.exec, zext]

theorem runBlock_EdgeValMapPtrIdx (cur_loc : Nat) (BB : BasicBlock) (s : State) :
    (runBlock cur_loc BB s).1.EdgeValMapPtrIdx =
      sext32 ((((s.prev_loc % 2 ^ 32) ^^^ (cur_loc % 2 ^ 32)) + MAP_SIZE) % 2 ^ 32) := by
  rw [runBlock_regs]
  simp [Probe.exec, zext]

theorem runBlock_PrevBBValCasted (cur_loc : Nat) (BB : BasicBlock) (s : State) :
    (runBlock cur_loc BB s).1.PrevBBValCasted = s.prev_bbval % 2 ^ 64 := by
  rw [runBlock_regs]
  simp [Probe.exec, zext]

theorem sext32_of_lt (x : Nat) (h : x < 2 ^ 31) : sext32 x = (x : Int) := by
  have h1 : x % 2 ^ 32 = x := Nat.mod_eq_of_lt (by omega)
  unfold sext32
  rw [h1, if_pos h]

theorem shift_lt (cur_loc : Nat) (h : cur_loc < MAP_SIZE) :
    ((cur_loc % 2 ^ 32) >>> 1) % 2 ^ 32 = cur_loc >>> 1 ∧ cur_loc >>> 1 < MAP_SIZE / 2 := by
  rw [MAP_SIZE_eq] at h ⊢
  have h1 : cur_loc % 2 ^ 32 = cur_loc := Nat.mod_eq_of_lt (by omega)
  have h2 : cur_loc >>> 1 = cur_loc / 2 := by
    simp [Nat.shiftRight_eq_div_pow]
  rw [h1, h2]
  constructor
  · exact Nat.mod_eq_of_lt (by omega)
  · omega

theorem edge_lt (prev cur_loc : Nat) (hp : prev < MAP_SIZE / 2) (hc : cur_loc < MAP_SIZE) :
    (prev % 2 ^ 32) ^^^ (cur_loc % 2 ^ 32) < MAP_SIZE := by
  rw [MAP_SIZE_eq] at hp hc ⊢
  have h1 : cur_loc % 2 ^ 32 = cur_loc := Nat.mod_eq_of_lt (by omega)
  have h2 : prev % 2 ^ 32 = prev := Nat.mod_eq_of_lt (by omega)
  rw [h1, h2]
  have hp2 : prev < 2 ^ 19 := by omega
  have hc2 : cur_loc < 2 ^ 19 := by omega
  have := Nat.xor_lt_two_pow hp2 hc2
  omega

/-! ## Edge index and bitmap stores -/

theorem mod_xor_mod (prev cur_loc : Nat) (hp : prev < MAP_SIZE / 2) (hc : cur_loc < MAP_SIZE) :
    (prev % 2 ^ 32) ^^^ (cur_loc % 2 ^ 32) = prev ^^^ cur_loc := by
  rw [MAP_SIZE_eq] at hp hc
  rw [Nat.mod_eq_of_lt (show prev < 2 ^ 32 by omega),
    Nat.mod_eq_of_lt (show cur_loc < 2 ^ 32 by omega)]

/-- The counter update and its frame when the edge index is below `2^31`
and the original instructions of the block do not write the bitmap. -/
theorem runBlock_counter (cur_loc : Nat) (BB : BasicBlock) (s : State)
    (hq : ∀ i ∈ BB.insts, ∀ t, (i.exec t).area = t.area)
    (he : (s.prev_loc % 2 ^ 32) ^^^ (cur_loc % 2 ^ 32) < 2 ^ 31) :
    (runBlock cur_loc BB s).2.1.area (((s.prev_loc % 2 ^ 32) ^^^ (cur_loc % 2 ^ 32) : Nat) : Int) =
      (s.area (((s.prev_loc % 2 ^ 32) ^^^ (cur_loc % 2 ^ 32) : Nat) : Int) % 256 + 1) % 256 ∧
    (s.area (((s.prev_loc % 2 ^ 32) ^^^ (cur_loc % 2 ^ 32) : Nat) : Int) % 256 = 255 →
      (runBlock cur_loc BB s).2.1.area
        (((s.prev_loc % 2 ^ 32) ^^^ (cur_loc % 2 ^ 32) : Nat) : Int) = 0) ∧
    ∀ q : Int, 0 ≤ q → q < (MAP_SIZE : Int) →
      q ≠ (((s.prev_loc % 2 ^ 32) ^^^ (cur_loc % 2 ^ 32) : Nat) : Int) →
      (runBlock cur_loc BB s).2.1.area q = s.area q := by
  rw [runBlock_area cur_loc BB s hq, runBlock_MapPtrIdx, runBlock_EdgeValMapPtrIdx,
    runBlock_PrevBBValCasted, sext32_of_lt _ he]
  generalize (s.prev_loc % 2 ^ 32) ^^^ (cur_loc % 2 ^ 32) = e at he ⊢
  have hM := MAP_SIZE_eq
  have hout : ∀ q : Int, 0 ≤ q →
      ¬ (sext32 ((e + MAP_SIZE) % 2 ^ 32) ≤ q ∧ q < sext32 ((e + MAP_SIZE) % 2 ^ 32) + 8) ∨
      ((MAP_SIZE : Int) ≤ q ∧ (e : Int) < q) := by
    intro q hq0
    have h2 : (e + MAP_SIZE) % 2 ^ 32 = e + MAP_SIZE := Nat.mod_eq_of_lt (by omega)
    unfold sext32
    rw [h2, Nat.mod_eq_of_lt (show e + MAP_SIZE < 2 ^ 32 by omega)]
    split <;> omega
  have hval : storeQuad (storeByte s.area (e : Int) ((s.area (e : Int) % 256 + 1) % 256))
      (sext32 ((e + MAP_SIZE) % 2 ^ 32)) (s.prev_bbval % 2 ^ 64) (e : Int) =
      (s.area (e : Int) % 256 + 1) % 256 := by
    unfold storeQuad
    rcases hout (e : Int) (by omega) with h | h
    · rw [if_neg h]
      simp [storeByte]
    · omega
  refine ⟨hval, ?_, ?_⟩
  · intro h255
    rw [hval, h255]
  · intro q hq0 hq1 hne
    unfold storeQuad
    rcases hout q hq0 with h | h
    · rw [if_neg h]
      simp [storeByte, hne]
    · omega

/-- C7: in an instrumented block (its `cur_loc` is below `MAP_SIZE`) entered
with `__afl_prev_loc` below `MAP_SIZE / 2`, as instrumented code leaves it,
and whose original instructions do not write the bitmap, the byte `c` at
offset `e = prev_loc XOR cur_loc` becomes `(c + 1) mod 256` (an unsigned
8-bit wraparound: 255 becomes 0, the counter does not saturate), and every
other byte of the first `MAP_SIZE` bytes of the bitmap is unchanged. -/
theorem counter_wraps (cur_loc : Nat) (BB : BasicBlock) (s : State)
    (hq : ∀ i ∈ BB.insts, ∀ t, (i.exec t).area = t.area)
    (hs : s.prev_loc < MAP_SIZE / 2) (hc : cur_loc < MAP_SIZE) :
    (runBlock cur_loc BB s).2.1.area ((s.prev_loc ^^^ cur_loc : Nat) : Int) =
      (s.area ((s.prev_loc ^^^ cur_loc : Nat) : Int) % 256 + 1) % 256 ∧
    (s.area ((s.prev_loc ^^^ cur_loc : Nat) : Int) % 256 = 255 →
      (runBlock cur_loc BB s).2.1.area ((s.prev_loc ^^^ cur_loc : Nat) : Int) = 0) ∧
    ∀ q : Int, 0 ≤ q → q < (MAP_SIZE : Int) →
      q ≠ ((s.prev_loc ^^^ cur_loc : Nat) : Int) →
      (runBlock cur_loc BB s).2.1.area q = s.area q := by
  have hlt := edge_lt s.prev_loc cur_loc hs hc
  have hM := MAP_SIZE_eq
  have h := runBlock_counter cur_loc BB s hq (by omega)
  rw [mod_xor_mod s.prev_loc cur_loc hs hc] at h
  exact h

/-- Witness for `counter_wraps`: a return block with `cur_loc = 5` entered
with `__afl_prev_loc = 3` and a counter at 255. -/
theorem counter_wraps_witness :
    (3 < MAP_SIZE / 2 ∧ 5 < MAP_SIZE) ∧
    (runBlock 5 ⟨[.cmp (.int 32) 1 2], some .other⟩ ⟨3, 9, 0, fun _ => 255⟩).2.1.area
      ((3 ^^^ 5 : Nat) : Int) = 0 :=
  ⟨by decide,
   (counter_wraps 5 ⟨[.cmp (.int 32) 1 2], some .other⟩ ⟨3, 9, 0, fun _ => 255⟩
      (by
        intro i hi t
        simp only [List.mem_singleton] at hi
        subst hi
        rfl)
      (by decide) (by decide)).2.1 (by decide)⟩

/-! ## Normalisation of comparison operands -/

theorem norm64_lt (ty : Ty) (v n : Nat) (h : norm64 ty v = some n) : n < 2 ^ 64 := by
  cases ty with
  | int w =>
    simp only [norm64] at h
    split at h
    · next hw =>
      cases h
      exact lt_of_lt_of_le (Nat.mod_lt _ (Nat.two_pow_pos w))
        (Nat.pow_le_pow_right (by decide) hw)
    · cases h
  | float =>
    simp only [norm64] at h
    cases h
    exact lt_of_lt_of_le (Nat.mod_lt _ (Nat.two_pow_pos 32)) (by decide)
  | double =>
    simp only [norm64] at h
    cases h
    exact Nat.mod_lt _ (Nat.two_pow_pos 64)
  | other => simp [norm64] at h

/-- The casts the pass emits compute `norm64` exactly on the operand types
that pass the guard of line 267, and the guard rejects exactly the types on
which `norm64` is undefined. -/
theorem opdCasted_eq_norm64 (ty : Ty) (v : Nat) :
    (supportedTy ty = true → norm64 ty v = some (opdCasted ty v)) ∧
    (supportedTy ty = false → norm64 ty v = none) := by
  cases ty with
  | int w =>
    by_cases hw : w ≤ 64
    · by_cases hw2 : w < 64
      · simp [supportedTy, norm64, opdCasted, Ty.isIntegerTy, Ty.getIntegerBitWidth,
          Ty.isFloatTy, Ty.isDoubleTy, hw, hw2, zext]
      · have : w = 64 := by omega
        subst this
        simp [supportedTy, norm64, opdCasted, Ty.isIntegerTy, Ty.getIntegerBitWidth,
          Ty.isFloatTy, Ty.isDoubleTy]
    · simp [supportedTy, norm64, Ty.isIntegerTy, Ty.getIntegerBitWidth,
        Ty.isFloatTy, Ty.isDoubleTy, hw]
  | float =>
    simp [supportedTy, norm64, opdCasted, Ty.isIntegerTy, Ty.getIntegerBitWidth,
      Ty.isFloatTy, Ty.isDoubleTy, zext]
  | double =>
    simp [supportedTy, norm64, opdCasted, Ty.isIntegerTy, Ty.getIntegerBitWidth,
      Ty.isFloatTy, Ty.isDoubleTy]
  | other =>
    simp [supportedTy, norm64, Ty.isIntegerTy, Ty.getIntegerBitWidth,
      Ty.isFloatTy, Ty.isDoubleTy]

/-! ## Basic-block value -/

theorem contribution_cmp_supported (ty : Ty) (a b : Nat) (h : supportedTy ty = true) :
    contribution (.cmp ty a b) = some (opdCasted ty a ^^^ opdCasted ty b) := by
  simp [contribution, (opdCasted_eq_norm64 ty a).1 h, (opdCasted_eq_norm64 ty b).1 h]

theorem contribution_cmp_unsupported (ty : Ty) (a b : Nat) (h : supportedTy ty = false) :
    contribution (.cmp ty a b) = none := by
  simp [contribution, (opdCasted_eq_norm64 ty a).2 h]

theorem opdCasted_lt (ty : Ty) (v : Nat) (h : supportedTy ty = true) :
    opdCasted ty v < 2 ^ 64 :=
  norm64_lt ty v _ ((opdCasted_eq_norm64 ty v).1 h)

/-- The accumulation probes fold the contributions of the comparisons into
`__afl_cur_bbval`, provided no original instruction writes that slot. -/
theorem accumulate (body : List Instr)
    (hq : ∀ i ∈ body, ∀ t, (i.exec t).cur_bbval = t.cur_bbval)
    (r : Regs) (s : State) (hs : s.cur_bbval < 2 ^ 64) :
    (execItems (instrumentCmps body) r s).2.1.cur_bbval =
      (body.filterMap contribution).foldl (fun acc c => acc ^^^ c) s.cur_bbval := by
  induction body generalizing r s with
  | nil => rfl
  | cons i rest ih =>
    have hrest : ∀ j ∈ rest, ∀ t, (j.exec t).cur_bbval = t.cur_bbval :=
      fun j hj => hq j (List.mem_cons_of_mem _ hj)
    have hi := hq i (List.mem_cons_self _ _) s
    cases i with
    | phi =>
      simp only [instrumentCmps, execItems, Item.exec, List.filterMap_cons, contribution]
      rw [ih hrest _ _ (by rw [hi]; exact hs), hi]
    | other eff =>
      simp only [instrumentCmps, execItems, Item.exec, List.filterMap_cons, contribution]
      rw [ih hrest _ _ (by rw [hi]; exact hs), hi]
    | cmp ty a b =>
      by_cases hsup : supportedTy ty = true
      · have hc := contribution_cmp_supported ty a b hsup
        have hlt : s.cur_bbval ^^^ (opdCasted ty a ^^^ opdCasted ty b) < 2 ^ 64 :=
          Nat.xor_lt_two_pow hs
            (Nat.xor_lt_two_pow (opdCasted_lt ty a hsup) (opdCasted_lt ty b hsup))
        simp only [instrumentCmps, hsup, if_true, execItems, Item.exec, Instr.exec,
          Probe.exec, List.filterMap_cons, hc, List.foldl_cons]
        rw [ih hrest _ _ (Nat.mod_lt _ (Nat.two_pow_pos 64))]
        simp only [zext, Nat.mod_mod, Nat.mod_eq_of_lt hs, Nat.mod_eq_of_lt hlt]
      · have hsup2 : supportedTy ty = false := by simpa using hsup
        have hc := contribution_cmp_unsupported ty a b hsup2
        simp only [instrumentCmps, hsup2, execItems, Item.exec, Instr.exec,
          List.filterMap_cons, hc]
        exact ih hrest _ _ hs

theorem filterMap_contribution_dropWhile (l : List Instr) :
    (l.dropWhile Instr.isPHI).filterMap contribution = l.filterMap contribution := by
  induction l with
  | nil => rfl
  | cons i rest ih =>
    cases i with
    | phi => simpa [List.dropWhile, Instr.isPHI, contribution] using ih
    | cmp ty a b => simp [List.dropWhile, Instr.isPHI]
    | other eff => simp [List.dropWhile, Instr.isPHI]

theorem foldl_xor_lt (l : List Nat) (a : Nat) (ha : a < 2 ^ 64) (hl : ∀ c ∈ l, c < 2 ^ 64) :
    l.foldl (fun acc c => acc ^^^ c) a < 2 ^ 64 := by
  induction l generalizing a with
  | nil => exact ha
  | cons c rest ih =>
    exact ih _ (Nat.xor_lt_two_pow ha (hl c (List.mem_cons_self _ _)))
      (fun d hd => hl d (List.mem_cons_of_mem _ hd))

theorem contribution_lt (i : Instr) (c : Nat) (h : contribution i = some c) : c < 2 ^ 64 := by
  cases i with
  | phi => simp [contribution] at h
  | other eff => simp [contribution] at h
  | cmp ty a b =>
    simp only [contribution] at h
    split at h
    · next x y hx hy =>
      cases h
      exact Nat.xor_lt_two_pow (norm64_lt ty a x hx) (norm64_lt ty b y hy)
    · cases h

theorem specBBValue_lt (insts : List Instr) : specBBValue insts < 2 ^ 64 := by
  apply foldl_xor_lt _ _ (by decide)
  intro c hc
  rcases List.mem_filterMap.1 hc with ⟨i, _, hi⟩
  exact contribution_lt i c hi

/-- C3: in an instrumented block ending in a conditional branch, if no
original instruction of the block writes `__afl_cur_bbval`, then after the
block `__afl_prev_bbval` is the XOR, over all comparisons of the block whose
operand type is an integer of at most 64 bits, `float` or `double`, of
`norm64 op0 XOR norm64 op1`; other comparisons contribute nothing and a
block without comparison gives 0. -/
theorem cond_branch_accumulates (cur_loc : Nat) (BB : BasicBlock) (s : State)
    (hterm : BB.term = some (.br true))
    (hq : ∀ i ∈ BB.insts, ∀ t, (i.exec t).cur_bbval = t.cur_bbval) :
    (runBlock cur_loc BB s).2.1.prev_bbval = specBBValue BB.insts := by
  have hq2 : ∀ i ∈ BB.insts.dropWhile Instr.isPHI, ∀ t, (i.exec t).cur_bbval = t.cur_bbval :=
    fun i hi => hq i (dropWhile_mem BB i hi)
  have hlt := specBBValue_lt BB.insts
  unfold specBBValue at hlt ⊢
  unfold runBlock instrumentBlock
  simp only [hterm, execItems_append, phis_exec, execItems, Item.exec, Probe.exec,
    List.nil_append]
  rw [accumulate _ hq2 _ _ (by show (0 : Nat) < 2 ^ 64; decide),
    filterMap_contribution_dropWhile]
  simp only [zext, Nat.mod_mod, Nat.mod_eq_of_lt hlt]

/-- Witness for `cond_branch_accumulates`: an `i8` comparison, a comparison
on pointers, a call that overwrites `__afl_prev_bbval`, and a `float`
comparison of `1.0f` with `0.0f`. -/
theorem cond_branch_accumulates_witness :
    (runBlock 7
      ⟨[.cmp (.int 8) 0xFF 0x01, .cmp .other 5 6,
        .other (fun t => { t with prev_bbval := 999 }), .cmp .float 0x3F800000 0],
       some (.br true)⟩ ⟨0, 5, 77, fun _ => 0⟩).2.1.prev_bbval = 0x3F8000FE :=
  (cond_branch_accumulates 7
      ⟨[.cmp (.int 8) 0xFF 0x01, .cmp .other 5 6,
        .other (fun t => { t with prev_bbval := 999 }), .cmp .float 0x3F800000 0],
       some (.br true)⟩ ⟨0, 5, 77, fun _ => 0⟩ rfl
      (by
        intro i hi t
        simp only [List.mem_cons, List.mem_singleton, List.not_mem_nil, or_false] at hi
        rcases hi with rfl | rfl | rfl | rfl <;> rfl)).trans (by decide)

theorem execItems_map_orig (l : List Instr) (r : Regs) (s : State) :
    execItems (l.map Item.orig) r s = (r, l.foldl (fun t i => i.exec t) s, []) := by
  induction l generalizing s with
  | nil => rfl
  | cons i rest ih => simp [execItems, Item.exec, ih]

theorem foldl_exec_frame {α : Type} (φ : State → α) (l : List Instr)
    (h : ∀ i ∈ l, ∀ t, φ (i.exec t) = φ t) (s : State) :
    φ (l.foldl (fun t i => i.exec t) s) = φ s := by
  induction l generalizing s with
  | nil => rfl
  | cons i rest ih =>
    simp only [List.foldl_cons]
    rw [ih (fun j hj => h j (List.mem_cons_of_mem _ hj)), h i (List.mem_cons_self _ _)]

/-- In an instrumented block whose terminator is a switch on a non-constant
integer condition of width `w ≤ 64`, the probes store the zero-extended
condition into `__afl_prev_bbval` as the last thing the block does, whatever
the number of cases and whatever the block contains. -/
theorem switch_sets_condition (cur_loc : Nat) (BB : BasicBlock) (s : State)
    (w SwCond ncases illExt : Nat)
    (hterm : BB.term = some (.switch (.int w) false SwCond ncases illExt))
    (hw : w ≤ 64) :
    (runBlock cur_loc BB s).2.1.prev_bbval = SwCond % 2 ^ w ∧
    (runBlock cur_loc BB s).2.2.filter Event.isPrevBBVal = [Event.prevBBVal (SwCond % 2 ^ w)] := by
  have hlt : SwCond % 2 ^ w < 2 ^ 64 :=
    lt_of_lt_of_le (Nat.mod_lt _ (Nat.two_pow_pos w)) (Nat.pow_le_pow_right (by decide) hw)
  unfold runBlock instrumentBlock
  simp only [hterm, Ty.isIntegerTy, Ty.getIntegerBitWidth, Bool.not_false, Bool.and_self,
    if_true, execItems_append, phis_exec, execItems_map_orig, execItems, Item.exec,
    Probe.exec, List.nil_append, List.append_nil, CreateZExt64, hw, zext,
    Nat.mod_eq_of_lt hlt]
  simp [Event.isPrevBBVal]

/-- An instance of `switch_sets_condition`: a switch on an `i8` condition
with bit pattern `0xFF` and 3 cases, in a block that also holds a
comparison. -/
theorem switch_sets_condition_witness :
    (8 ≤ 64) ∧
    (runBlock 7 ⟨[.cmp (.int 32) 1 2], some (.switch (.int 8) false 0xFF 3 0)⟩
      ⟨0, 5, 77, fun _ => 0⟩).2.1.prev_bbval = 0xFF :=
  ⟨by decide,
   (switch_sets_condition 7 ⟨[.cmp (.int 32) 1 2], some (.switch (.int 8) false 0xFF 3 0)⟩
      ⟨0, 5, 77, fun _ => 0⟩ 8 0xFF 3 0 rfl (by decide)).1⟩

theorem instrumentBlock_zero (cur_loc : Nat) (BB : BasicBlock)
    (h1 : BB.term ≠ some (.br true))
    (h2 : ∀ w c n x, BB.term ≠ some (.switch (.int w) false c n x)) :
    instrumentBlock cur_loc BB =
      (BB.insts.takeWhile Instr.isPHI).map Item.orig ++
        [Item.probe (.entry cur_loc), Item.probe .zero] ++
        (BB.insts.dropWhile Instr.isPHI).map Item.orig := by
  unfold instrumentBlock
  cases hterm : BB.term with
  | none => rfl
  | some t =>
    cases t with
    | other => rfl
    | br c =>
      cases c with
      | false => rfl
      | true => exact absurd hterm h1
    | switch ty k c n x =>
      cases ty with
      | int w =>
        cases k with
        | false => exact absurd hterm (h2 w c n x)
        | true => simp [Ty.isIntegerTy]
      | float => simp [Ty.isIntegerTy]
      | double => simp [Ty.isIntegerTy]
      | other => simp [Ty.isIntegerTy]

/-- C6: in an instrumented block whose terminator is neither a conditional
branch nor a switch on a non-constant integer condition, the only store of
the probes to `__afl_prev_bbval` stores 0, whatever comparisons the block
contains; the slot is 0 after the block when no original instruction of the
block writes it. -/
theorem other_terminator_resets (cur_loc : Nat) (BB : BasicBlock) (s : State)
    (h1 : BB.term ≠ some (.br true))
    (h2 : ∀ w c n x, BB.term ≠ some (.switch (.int w) false c n x)) :
    (runBlock cur_loc BB s).2.2.filter Event.isPrevBBVal = [Event.prevBBVal 0] ∧
    ((∀ i ∈ BB.insts, ∀ t, (i.exec t).prev_bbval = t.prev_bbval) →
      (runBlock cur_loc BB s).2.1.prev_bbval = 0) := by
  unfold runBlock
  rw [instrumentBlock_zero cur_loc BB h1 h2]
  simp only [execItems_append, phis_exec, execItems_map_orig, execItems, Item.exec,
    Probe.exec, List.nil_append, List.append_nil]
  refine ⟨by simp [Event.isPrevBBVal], ?_⟩
  intro hq
  rw [foldl_exec_frame (fun t => t.prev_bbval) _
    (fun i hi => hq i (dropWhile_mem BB i hi))]

/-- Witness for `other_terminator_resets`: an unconditional branch at the
end of a block that holds a comparison. -/
theorem other_terminator_resets_witness :
    (runBlock 7 ⟨[.cmp (.int 32) 1 2], some (.br false)⟩
      ⟨0, 5, 77, fun _ => 0⟩).2.2.filter Event.isPrevBBVal = [Event.prevBBVal 0] ∧
    (runBlock 7 ⟨[.cmp (.int 32) 1 2], some (.br false)⟩
      ⟨0, 5, 77, fun _ => 0⟩).2.1.prev_bbval = 0 :=
  have h := other_terminator_resets 7 ⟨[.cmp (.int 32) 1 2], some (.br false)⟩
      ⟨0, 5, 77, fun _ => 0⟩ (by simp) (by simp)
  ⟨h.1, h.2 (by
    intro i hi t
    simp only [List.mem_singleton] at hi
    subst hi
    rfl)⟩

/-- C4: the operand normalisation keeps the exact bit pattern.  An integer
of width `w ≤ 64` is zero-extended (the 8-bit `0xFF` gives `0xFF`, not the
sign-extended `0xFFFFFFFFFFFFFFFF`, and a conditional-branch block comparing
an 8-bit `a` and a 16-bit `b` with zero accumulates `zext64 a XOR zext64 b`);
a `float` gives its 32-bit pattern with the high 32 bits zero (`1.0f` gives
`0x3F800000`); a `double` and an `i64` give their 64 bits unchanged. -/
theorem normalisation_keeps_bits :
    (∀ w v : Nat, w ≤ 64 → opdCasted (.int w) v = v % 2 ^ w) ∧
    (opdCasted (.int 8) 0xFF = 0xFF ∧ opdCasted (.int 8) 0xFF ≠ 0xFFFFFFFFFFFFFFFF) ∧
    (∀ (a b cur_loc : Nat) (s : State),
      (runBlock cur_loc ⟨[.cmp (.int 8) a 0, .cmp (.int 16) b 0], some (.br true)⟩
        s).2.1.prev_bbval = (a % 2 ^ 8) ^^^ (b % 2 ^ 16)) ∧
    (∀ v : Nat, opdCasted .float v = v % 2 ^ 32 ∧ opdCasted .float v / 2 ^ 32 = 0) ∧
    opdCasted .float (float32Bits false 127 0) = 0x000000003F800000 ∧
    (∀ v : Nat, opdCasted .double v = v % 2 ^ 64 ∧ opdCasted (.int 64) v = v % 2 ^ 64) ∧
    (∀ v : Nat, v < 2 ^ 64 → opdCasted .double v = v ∧ opdCasted (.int 64) v = v) := by
  refine ⟨?_, ⟨by decide, by decide⟩, ?_, ?_, by decide, ?_, ?_⟩
  · intro w v hw
    have h := (opdCasted_eq_norm64 (.int w) v).1
      (by simp [supportedTy, Ty.isIntegerTy, Ty.getIntegerBitWidth, hw])
    simp only [norm64, hw, if_true, Option.some.injEq] at h
    exact h.symm
  · intro a b cur_loc s
    have ha : a % 2 ^ 8 < 2 ^ 64 :=
      lt_of_lt_of_le (Nat.mod_lt _ (Nat.two_pow_pos 8)) (by decide)
    have hb : b % 2 ^ 16 < 2 ^ 64 :=
      lt_of_lt_of_le (Nat.mod_lt _ (Nat.two_pow_pos 16)) (by decide)
    have hab := Nat.xor_lt_two_pow ha hb
    simp only [runBlock, instrumentBlock, List.takeWhile, List.dropWhile, Instr.isPHI,
      List.map_nil, List.nil_append, instrumentCmps, supportedTy, Ty.isIntegerTy,
      Ty.getIntegerBitWidth, Ty.isFloatTy, Ty.isDoubleTy, opdCasted, zext, execItems,
      List.cons_append, Item.exec, Instr.exec, Probe.exec]
    norm_num at ha hab ⊢
    rw [Nat.mod_eq_of_lt ha, Nat.mod_eq_of_lt hab]
  · intro v
    have h : v % 2 ^ 32 < 2 ^ 32 := Nat.mod_lt _ (Nat.two_pow_pos 32)
    refine ⟨by simp [opdCasted, Ty.isFloatTy, zext], ?_⟩
    simp only [opdCasted, Ty.isFloatTy, if_true, zext, Nat.mod_mod]
    exact Nat.div_eq_of_lt h
  · intro v
    simp [opdCasted, Ty.isFloatTy, Ty.isDoubleTy, Ty.isIntegerTy, Ty.getIntegerBitWidth]
  · intro v hv
    norm_num at hv
    simp [opdCasted, Ty.isFloatTy, Ty.isDoubleTy, Ty.isIntegerTy, Ty.getIntegerBitWidth,
      Nat.mod_eq_of_lt hv]

/-! ## Range of the edge index -/

theorem runBlocks_invariant (blocks : List (Nat × BasicBlock)) (s : State)
    (hs : s.prev_loc < MAP_SIZE / 2)
    (hloc : ∀ b ∈ blocks, b.1 < MAP_SIZE)
    (hq : ∀ b ∈ blocks, ∀ i ∈ b.2.insts, ∀ t, (i.exec t).prev_loc = t.prev_loc) :
    (runBlocks blocks s).2.prev_loc < MAP_SIZE / 2 ∧
    ∀ e ∈ (runBlocks blocks s).1, e < MAP_SIZE := by
  induction blocks generalizing s with
  | nil => exact ⟨hs, by simp [runBlocks]⟩
  | cons b rest ih =>
    have hb := hloc b (List.mem_cons_self _ _)
    have hnext : (runBlock b.1 b.2 s).2.1.prev_loc < MAP_SIZE / 2 := by
      rw [runBlock_prev_loc b.1 b.2 s (hq b (List.mem_cons_self _ _)), (shift_lt b.1 hb).1]
      exact (shift_lt b.1 hb).2
    have h := ih (runBlock b.1 b.2 s).2.1 hnext
      (fun c hc => hloc c (List.mem_cons_of_mem _ hc))
      (fun c hc => hq c (List.mem_cons_of_mem _ hc))
    refine ⟨h.1, ?_⟩
    intro e he
    simp only [runBlocks, List.mem_cons] at he
    rcases he with rfl | he
    · rw [runBlock_BitMapIndex]
      exact edge_lt _ _ hs hb
    · exact h.2 e he

/-- C8: `MAP_SIZE` is the power of two `2^19`; every instrumented block with
`cur_loc < MAP_SIZE` none of whose original instructions writes
`__afl_prev_loc` leaves `cur_loc >> 1` in that slot; hence for every sequence
of such block executions started with `__afl_prev_loc = 0` the slot stays
below `MAP_SIZE / 2` and every edge index used lies in `[0, MAP_SIZE)`. -/
theorem edge_index_in_range (blocks : List (Nat × BasicBlock)) (s : State)
    (h0 : s.prev_loc = 0)
    (hloc : ∀ b ∈ blocks, b.1 < MAP_SIZE)
    (hq : ∀ b ∈ blocks, ∀ i ∈ b.2.insts, ∀ t, (i.exec t).prev_loc = t.prev_loc) :
    MAP_SIZE = 2 ^ 19 ∧
    (∀ b ∈ blocks, ∀ t, (runBlock b.1 b.2 t).2.1.prev_loc = b.1 >>> 1) ∧
    (runBlocks blocks s).2.prev_loc < MAP_SIZE / 2 ∧
    ∀ e ∈ (runBlocks blocks s).1, e < MAP_SIZE := by
  refine ⟨by decide, ?_, ?_⟩
  · intro b hb t
    rw [runBlock_prev_loc b.1 b.2 t (hq b hb), (shift_lt b.1 (hloc b hb)).1]
  · exact runBlocks_invariant blocks s (by rw [h0, MAP_SIZE_eq]; decide) hloc hq

/-- Witness for `edge_index_in_range`: three block executions with
locations `MAP_SIZE - 1`, `1` and `MAP_SIZE - 2`. -/
theorem edge_index_in_range_witness :
    (runBlocks [(524287, ⟨[.cmp (.int 32) 1 2], some (.br true)⟩), (1, ⟨[], some .other⟩),
        (524286, ⟨[.phi], some (.switch (.int 32) false 4 2 0)⟩)]
      ⟨0, 0, 0, fun _ => 0⟩).1 = [524287, 262142, 524286] ∧
    (runBlocks [(524287, ⟨[.cmp (.int 32) 1 2], some (.br true)⟩), (1, ⟨[], some .other⟩),
        (524286, ⟨[.phi], some (.switch (.int 32) false 4 2 0)⟩)]
      ⟨0, 0, 0, fun _ => 0⟩).2.prev_loc < MAP_SIZE / 2 :=
  ⟨by decide,
   (edge_index_in_range
      [(524287, ⟨[.cmp (.int 32) 1 2], some (.br true)⟩), (1, ⟨[], some .other⟩),
        (524286, ⟨[.phi], some (.switch (.int 32) false 4 2 0)⟩)]
      ⟨0, 0, 0, fun _ => 0⟩ rfl
      (by
        intro b hb
        simp only [List.mem_cons, List.mem_singleton, List.not_mem_nil, or_false] at hb
        rcases hb with rfl | rfl | rfl <;> decide)
      (by
        intro b hb i hi t
        simp only [List.mem_cons, List.mem_singleton, List.not_mem_nil, or_false] at hb
        rcases hb with rfl | rfl | rfl
        · simp only [List.mem_singleton] at hi
          subst hi
          rfl
        · simp at hi
        · simp only [List.mem_singleton] at hi
          subst hi
          rfl)).2.2.1⟩

/-! ## Layout of the basic-block values -/

/-- C10, the code at the failing input: a block with edge index 0 entered
with `__afl_prev_bbval = 0x1122334455667788` stores that value at byte offset
`MAP_SIZE`, where it can be read back; the next block, with edge index 1,
stores its own incoming value at byte offset `MAP_SIZE + 1`, and the value
recorded for edge index 0 is no longer the one written for it, although
`neuzzconfig.h` reserves eight bytes per edge index. -/
theorem edge_values_overlap :
    BBVAL_MAP_SIZE = NEUZZ_MAP_SIZE * 8 ∧
    (runBlock 0 ⟨[], some (.switch (.int 64) false 0xAABBCCDDEEFF0011 2 0)⟩
      ⟨0, 0x1122334455667788, 0, fun _ => 0⟩).1.BitMapIndex = 0 ∧
    loadQuad (runBlock 0 ⟨[], some (.switch (.int 64) false 0xAABBCCDDEEFF0011 2 0)⟩
      ⟨0, 0x1122334455667788, 0, fun _ => 0⟩).2.1.area (MAP_SIZE + 0) = 0x1122334455667788 ∧
    (runBlocks [(0, ⟨[], some (.switch (.int 64) false 0xAABBCCDDEEFF0011 2 0)⟩),
        (1, ⟨[], some .other⟩)] ⟨0, 0x1122334455667788, 0, fun _ => 0⟩).1 = [0, 1] ∧
    loadQuad (runBlocks [(0, ⟨[], some (.switch (.int 64) false 0xAABBCCDDEEFF0011 2 0)⟩),
        (1, ⟨[], some .other⟩)] ⟨0, 0x1122334455667788, 0, fun _ => 0⟩).2.area (MAP_SIZE + 0)
      = 0xBBCCDDEEFF001188 := by
  refine ⟨rfl, by decide, by decide, by decide, by decide⟩

/-! ## Instrumentation ratio -/

theorem scanDigits_append (ds rest : List Char) (acc : Nat)
    (hds : ∀ c ∈ ds, isdigit c = true)
    (hrest : ∀ c, rest.head? = some c → isdigit c = false) :
    scanDigits (ds ++ rest) acc = ds.foldl (fun a c => a * 10 + (c.toNat - 48)) acc := by
  induction ds generalizing acc with
  | nil =>
    cases rest with
    | nil => rfl
    | cons c t => simp [scanDigits, hrest c rfl]
  | cons d ds ih =>
    simp only [List.cons_append, scanDigits, hds d (List.mem_cons_self _ _), if_true,
      List.foldl_cons]
    exact ih _ (fun c hc => hds c (List.mem_cons_of_mem _ hc))

theorem isdigit_not_isspace (c : Char) (h : isdigit c = true) : isspace c = false := by
  simp only [isdigit, Bool.and_eq_true, decide_eq_true_eq] at h
  simp only [isspace, Bool.or_eq_false_iff, Bool.and_eq_false_iff, decide_eq_false_iff_not]
  omega

/-- A string that starts with a run of digits of value `n < 2^32`, followed
by anything that is not a digit, converts to `n`. -/
theorem sscanf_u_digits (ds rest : List Char) (hne : ds ≠ [])
    (hds : ∀ c ∈ ds, isdigit c = true)
    (hrest : ∀ c, rest.head? = some c → isdigit c = false)
    (hval : ds.foldl (fun a c => a * 10 + (c.toNat - 48)) 0 < 2 ^ 32) :
    sscanf_u (ds ++ rest) = some (ds.foldl (fun a c => a * 10 + (c.toNat - 48)) 0) := by
  cases ds with
  | nil => exact absurd rfl hne
  | cons d t =>
    have hd := hds d (List.mem_cons_self _ _)
    have hsp := isdigit_not_isspace d hd
    have hd2 := hd
    simp only [isdigit, Bool.and_eq_true, decide_eq_true_eq] at hd2
    have h45 : ¬ d.toNat = 45 := by omega
    have h43 : ¬ d.toNat = 43 := by omega
    have hscan := scanDigits_append (d :: t) rest 0 hds hrest
    simp only [List.cons_append] at hscan
    have hlt : ¬ (2 ^ 64 ≤ List.foldl (fun a c => a * 10 + (c.toNat - 48)) 0 (d :: t)) := by
      omega
    simp only [sscanf_u, List.cons_append, List.dropWhile, hsp, scanSign, h45, h43, if_false,
      hd, if_true, List.append_eq, hscan, hlt, Bool.false_eq_true, Nat.mod_eq_of_lt hval]

theorem toDigits_facts : ∀ n, n ≤ 100 →
    (Nat.toDigits 10 n ≠ [] ∧ (∀ c ∈ Nat.toDigits 10 n, isdigit c = true) ∧
      (Nat.toDigits 10 n).foldl (fun a c => a * 10 + (c.toNat - 48)) 0 = n) := by
  decide

theorem decideRatio_digits (n : Nat) (h1 : 1 ≤ n) (h100 : n ≤ 100) (rest : List Char)
    (hrest : ∀ c, rest.head? = some c → isdigit c = false) :
    decideRatio (some (Nat.toDigits 10 n ++ rest)) = .ok n := by
  obtain ⟨hne, hds, hval⟩ := toDigits_facts n h100
  have hs := sscanf_u_digits (Nat.toDigits 10 n) rest hne hds hrest
    (by rw [hval]; omega)
  rw [hval] at hs
  have hn : ¬ (n = 0 ∨ n > 100) := by omega
  simp only [decideRatio, hs, hn, if_false]

theorem decideRatio_range (str : List Char) (r : Nat)
    (h : decideRatio (some str) = .ok r) : sscanf_u str = some r ∧ 1 ≤ r ∧ r ≤ 100 := by
  simp only [decideRatio] at h
  cases hs : sscanf_u str with
  | none =>
    rw [hs] at h
    simp [FATAL] at h
  | some v =>
    rw [hs] at h
    simp only at h
    split at h
    · simp [FATAL] at h
    · next hv =>
      cases h
      exact ⟨rfl, by omega, by omega⟩

/-- C9, as amended: the ratio is 100 when `AFL_INST_RATIO` is absent.  When
it is present, the numeral of any `n` in `1..100` is accepted with ratio `n`,
also when characters that do not start with a digit follow it; `"0"` and
`"101"` are rejected; the empty string and a string whose first character is
neither white space, a sign nor a digit are rejected; an accepted ratio is
the number `sscanf` converted and lies in `1..100`; and whenever the ratio is
rejected the pass ends with the fatal error and instruments no block. -/
theorem ratio_decision :
    decideRatio none = .ok 100 ∧
    (∀ n : Nat, 1 ≤ n → n ≤ 100 → ∀ rest : List Char,
      (∀ c, rest.head? = some c → isdigit c = false) →
      decideRatio (some (Nat.toDigits 10 n ++ rest)) = .ok n) ∧
    decideRatio (some ['0']) =
      FATAL "Bad value of AFL_INST_RATIO (must be between 1 and 100)" ∧
    decideRatio (some ['1', '0', '1']) =
      FATAL "Bad value of AFL_INST_RATIO (must be between 1 and 100)" ∧
    decideRatio (some []) =
      FATAL "Bad value of AFL_INST_RATIO (must be between 1 and 100)" ∧
    (∀ (c : Char) (rest : List Char), isspace c = false → isdigit c = false →
      c.toNat ≠ 43 → c.toNat ≠ 45 →
      decideRatio (some (c :: rest)) =
        FATAL "Bad value of AFL_INST_RATIO (must be between 1 and 100)") ∧
    (∀ (str : List Char) (r : Nat), decideRatio (some str) = .ok r →
      sscanf_u str = some r ∧ 1 ≤ r ∧ r ≤ 100) ∧
    (∀ (env : Option (List Char)) (e : String) (rnd : Nat → Nat) (M : List (List BasicBlock)),
      decideRatio env = .error e → runOnModule env rnd M = .error e) := by
  refine ⟨rfl, decideRatio_digits, rfl, rfl, rfl, ?_, decideRatio_range, ?_⟩
  · intro c rest hsp hd h43 h45
    simp [decideRatio, sscanf_u, List.dropWhile, hsp, scanSign, h43, h45, hd]
  · intro env e rnd M h
    simp only [runOnModule, h]

/-- C9, counterexample: `AFL_INST_RATIO=50abc` is present and is not a valid
integer, yet the pass does not fail; it runs with ratio 50. -/
theorem ratio_accepts_trailing_text :
    decideRatio (some ['5', '0', 'a', 'b', 'c']) = .ok 50 ∧
    runOnModule (some ['5', '0', 'a', 'b', 'c']) (fun _ => 0) [[⟨[], some .other⟩]] =
      .ok ([some [Item.probe (.entry 0), Item.probe .zero]], 1) := by
  refine ⟨rfl, rfl⟩

end Neuzz
